import Mathlib

/-!
Verification of the output stage (`src/output.c`) of the nrsc5 digital-audio
pipeline: the ADTS frame-header codec, the framed-file dump paths, the
threaded playback buffer pool, and the dispatcher `output_push` /
`output_reset` / `output_init_*` functions.

Machine integers are modelled as `Nat`; bit packing is explicit MSB-first;
the intrusive singly linked lists of `output_buffer_t` are modelled by an
explicit next-pointer heap over buffer identifiers.
-/

namespace NRSC5

/-! ## Bitwriter model

Modelled from the spec: `bitwriter.h` (`bw_init`/`bw_addbits`/`bw_flush`) is
part of this repository but not under `src/`; per §6 of the spec the header
is "bit-packed most-significant-bit first in the exact field order and
widths listed", so `bw_addbits v n` appends the `n` low-order bits of `v`,
most significant first, to the bit stream, and the accumulated bits are
flushed to bytes MSB-first. -/

/-- The `n` low-order bits of `v`, most significant bit first. -/
def bitsOf (v n : Nat) : List Bool :=
  (List.range n).map (fun i => v.testBit (n - 1 - i))

/-- `bw_addbits`: append the `n`-bit field `v` to the accumulated bit stream. -/
def bw_addbits (acc : List Bool) (v n : Nat) : List Bool :=
  acc ++ bitsOf v n

/-- Value of a bit string read MSB-first. -/
def bitsVal (l : List Bool) : Nat :=
  l.foldl (fun a b => 2 * a + (if b then 1 else 0)) 0

/-- Byte array produced by flushing a bit stream, one byte per 8 bits. -/
def bytesOfBits (l : List Bool) : List Nat :=
  (List.range (l.length / 8)).map (fun k => bitsVal ((l.drop (8 * k)).take 8))

/-- Bit stream of a byte array, each byte unpacked MSB-first. -/
def bitsOfBytes (bs : List Nat) : List Bool :=
  bs.flatMap (fun b => bitsOf b 8)

/-- Decode the field of width `w` starting at bit offset `off` of a
byte array (MSB-first bit numbering). -/
def readField (bs : List Nat) (off w : Nat) : Nat :=
  bitsVal (((bitsOfBytes bs).drop off).take w)

/-! ## Frame Header Codec (`write_adts_header`, output.c:34-57)

The C function fills a 7-byte array through a bitwriter and writes it to the
file; here the pure core returning the 7 bytes is factored out. -/

/-- The bit stream accumulated by the fifteen `bw_addbits` calls of
`write_adts_header` (output.c:40-54), in source order. -/
def adtsHeaderBits (len : Nat) : List Bool :=
  let bw : List Bool := []
  let bw := bw_addbits bw 0xFFF 12 -- sync word
  let bw := bw_addbits bw 0 1      -- MPEG-4
  let bw := bw_addbits bw 0 2      -- Layer
  let bw := bw_addbits bw 1 1      -- no CRC
  let bw := bw_addbits bw 1 2      -- AAC-LC
  let bw := bw_addbits bw 7 4      -- 22050 HZ
  let bw := bw_addbits bw 0 1      -- private bit
  let bw := bw_addbits bw 2 3      -- 2-channel configuration
  let bw := bw_addbits bw 0 1
  let bw := bw_addbits bw 0 1
  let bw := bw_addbits bw 0 1
  let bw := bw_addbits bw 0 1
  let bw := bw_addbits bw (len + 7) 13 -- frame length
  let bw := bw_addbits bw 0x7FF 11 -- buffer fullness (VBR)
  let bw := bw_addbits bw 0 2      -- 1 AAC frame per ADTS frame
  bw

/-- The 7 header bytes written by `write_adts_header` for payload length
`len` (output.c:34-57). -/
def write_adts_header (len : Nat) : List Nat :=
  bytesOfBits (adtsHeaderBits len)

/-! ### Decomposition of the header bit stream -/

/-- The 30 constant bits preceding the `frame_length` field. -/
def adtsPreBits : List Bool :=
  bitsOf 0xFFF 12 ++ bitsOf 0 1 ++ bitsOf 0 2 ++ bitsOf 1 1 ++ bitsOf 1 2 ++
  bitsOf 7 4 ++ bitsOf 0 1 ++ bitsOf 2 3 ++ bitsOf 0 1 ++ bitsOf 0 1 ++
  bitsOf 0 1 ++ bitsOf 0 1

/-- The 13 constant bits following the `frame_length` field. -/
def adtsSufBits : List Bool := bitsOf 0x7FF 11 ++ bitsOf 0 2


/-- The fourteen constant header fields (§6 order: sync, id, layer,
protection_absent, profile, sampling_freq_index, private, channel_config,
original, home, copyright_id, copyright_start, buffer_fullness,
frames_in_payload_minus_one) decoded from a header byte array. -/
def adtsConstFieldsOk (bs : List Nat) : Prop :=
  readField bs 0 12 = 0xFFF ∧ readField bs 12 1 = 0 ∧ readField bs 13 2 = 0 ∧
  readField bs 15 1 = 1 ∧ readField bs 16 2 = 1 ∧ readField bs 18 4 = 7 ∧
  readField bs 22 1 = 0 ∧ readField bs 23 3 = 2 ∧ readField bs 26 1 = 0 ∧
  readField bs 27 1 = 0 ∧ readField bs 28 1 = 0 ∧ readField bs 29 1 = 0 ∧
  readField bs 43 11 = 0x7FF ∧ readField bs 54 2 = 0


/-! ## Playback Buffer Pool (USE_THREADS build, output.c:111-191, 229-243)

`output_buffer_t` objects are identified by `Nat` ids; their intrusive
`next` pointers form an explicit heap `Buf → Option Buf`. `free`, `head`,
`tail` are the three list pointers of `output_t`. `prodHeld` / `workerHeld`
record the buffer the producer (resp. worker) holds between its two lock
regions; `published` / `taken` are ghost logs of enqueue/dequeue order.
Each lock-protected region of the C code is one atomic step. -/

abbrev Buf := Nat

abbrev Heap := Buf → Option Buf

/-- Pointer store update (`p->next = v`). -/
def upd (f : Heap) (x : Buf) (v : Option Buf) : Heap :=
  fun y => if y = x then v else f y

structure PoolSt where
  next : Heap
  free : Option Buf
  head : Option Buf
  tail : Option Buf
  prodHeld : Option Buf
  workerHeld : Option Buf
  published : List Buf
  taken : List Buf

/-- Producer lock region 1 (output.c:112-117): wait until `st->free` is
non-null, pop the free-list head and hold it. Disabled (`none`) while the
wait would block or the producer already holds a buffer. -/
def acquire_free (s : PoolSt) : Option PoolSt :=
  match s.prodHeld, s.free with
  | none, some ob => some { s with free := s.next ob, prodHeld := some ob }
  | _, _ => none

/-- Producer lock region 2 (output.c:121-129): `ob->next = NULL`, append
`ob` at the pending tail, signal. -/
def publish (s : PoolSt) : Option PoolSt :=
  match s.prodHeld with
  | some ob =>
    let n1 := upd s.next ob none
    some (match s.tail with
      | some t =>
        { s with
          next := upd n1 t (some ob)
          tail := some ob
          prodHeld := none
          published := s.published ++ [ob] }
      | none =>
        { s with
          next := n1
          head := some ob
          tail := some ob
          prodHeld := none
          published := s.published ++ [ob] })
  | none => none

/-- Worker lock region 1 (output.c:145-149): wait until `st->head` is
non-null and read it; the buffer is NOT unlinked here — it stays at the
pending head while `ao_play` runs. -/
def take_pending (s : PoolSt) : Option PoolSt :=
  match s.workerHeld, s.head with
  | none, some ob =>
    some { s with workerHeld := some ob, taken := s.taken ++ [ob] }
  | _, _ => none

/-- Worker lock region 2 (output.c:153-159): `st->head = ob->next`; clear
`tail` if the list emptied; push `ob` onto the free list. -/
def release (s : PoolSt) : Option PoolSt :=
  match s.workerHeld with
  | some ob =>
    let h := s.next ob
    some
      { s with
        head := h
        tail := if h = none then none else s.tail
        next := upd s.next ob s.free
        free := some ob
        workerHeld := none }
  | none => none

/-- The loop `for (ob = st->head; ob && ob->next != NULL; ob = ob->next)`
(output.c:180): last node of the list starting at `p`. Fuel guards against
cycles in a corrupted heap (where the C loop would not terminate); outer
`none` means the walk did not finish. -/
def walkLast (next : Heap) : Nat → Option Buf → Option (Option Buf)
  | _, none => some none
  | 0, some b => match next b with
      | none => some (some b)
      | some _ => none
  | fuel + 1, some b => match next b with
      | none => some (some b)
      | some b2 => walkLast next fuel (some b2)

/-- The pool part of `output_reset` (output.c:178-191): splice the whole
pending list onto the front of the free list and clear `head`/`tail`. -/
def output_reset_pool (s : PoolSt) : Option PoolSt :=
  match walkLast s.next 64 s.head with
  | none => none
  | some none => some { s with head := none, tail := none }
  | some (some ob) =>
    some
      { s with
        next := upd s.next ob s.free
        free := s.head
        head := none
        tail := none }

inductive PoolOp
  | acq | pub | take | rel | reset
  deriving DecidableEq

def poolStep : PoolOp → PoolSt → Option PoolSt
  | .acq => acquire_free
  | .pub => publish
  | .take => take_pending
  | .rel => release
  | .reset => output_reset_pool

def runPool : List PoolOp → PoolSt → Option PoolSt
  | [], s => some s
  | op :: ops, s =>
    match poolStep op s with
    | none => none
    | some s2 => runPool ops s2

/-- `output_init_ao`'s pool setup (output.c:230-239): 32 buffers are
allocated in turn, each pushed onto the free list. -/
def initPool : PoolSt :=
  (List.range 32).foldl
    (fun s i => { s with next := upd s.next i s.free, free := some i })
    { next := fun _ => none, free := none, head := none, tail := none,
      prodHeld := none, workerHeld := none, published := [], taken := [] }

/-- Buffers reachable from the free pointer (fuel-bounded, deduplicated,
so it is meaningful even on a corrupted cyclic heap). -/
def chainTake (next : Heap) : Nat → Option Buf → List Buf
  | 0, _ => []
  | _, none => []
  | fuel + 1, some b => b :: chainTake next fuel (next b)

def freeReach (s : PoolSt) : List Buf := (chainTake s.next 40 s.free).dedup

def pendReach (s : PoolSt) : List Buf := (chainTake s.next 40 s.head).dedup

def heldList (s : PoolSt) : List Buf :=
  s.prodHeld.toList ++ s.workerHeld.toList


/-! ### Well-formedness of the intrusive lists -/

/-- `isChain next p l` holds when the list `l` spells out exactly the nodes
visited from pointer `p` following `next` until `NULL`. -/
def isChain (next : Heap) : Option Buf → List Buf → Bool
  | p, [] => p == none
  | p, b :: l => p == some b && isChain next (next b) l

/-- The relation between the ghost logs and the pending list: when the
worker holds the head buffer (between its two lock regions) that buffer is
counted in `taken` but still linked in the pending list. -/
def workerGhostInv (s : PoolSt) (pend : List Buf) : Prop :=
  match s.workerHeld with
  | none => s.published = s.taken ++ pend
  | some b => ∃ rest, pend = b :: rest ∧ s.published = s.taken ++ rest

/-- Structural invariant of the pool: the free and pending pointers spell
out proper null-terminated lists, `tail` is the last pending node, and the
free list, pending list and producer-held buffer are pairwise disjoint. -/
def PoolInv (s : PoolSt) : Prop :=
  ∃ freeL pend : List Buf,
    isChain s.next s.free freeL = true ∧
    isChain s.next s.head pend = true ∧
    s.tail = pend.getLast? ∧
    (freeL ++ pend ++ s.prodHeld.toList).Nodup ∧
    workerGhostInv s pend

/-- Operation sequence refuting the pool-size invariant: `output_reset`
runs between the worker's peek of the pending head and its unlink
(i.e. while `ao_play` is in progress), then one more packet is pushed. -/
def c3trace : List PoolOp := [.acq, .pub, .take, .reset, .rel, .acq, .pub]

def c3state : PoolSt := (runPool c3trace initPool).getD initPool

/-- Concrete interleaving used to witness the FIFO theorem. -/
def c4trace : List PoolOp := [.acq, .pub, .acq, .pub, .take, .rel, .take]

def c4state : PoolSt := (runPool c4trace initPool).getD initPool

/-! ## Output session model (`output_t` and the dispatcher)

`method` is one of the four `OUTPUT_*` constants of `output.h` (declared
outside `src/`, but its four values are fixed by their uses in output.c).
The external collaborators (faad2 decoder, `hdc_to_aac` transcoder, libao
sink) enter as parameters: the decoder's result (`NeAACDecFrameInfo` and
PCM bytes) and the transcoder's output bytes are inputs of `output_push`. -/

inductive OutputMethod
  | adts | hdc | wav | live
  deriving DecidableEq

/-- An open `FILE*`: accumulated bytes plus whether the last write has been
flushed. -/
structure FileSt where
  data : List Nat
  flushed : Bool
  deriving DecidableEq

def fwriteF (fp : FileSt) (bytes : List Nat) : FileSt :=
  { data := fp.data ++ bytes, flushed := false }

def fflushF (fp : FileSt) : FileSt :=
  { fp with flushed := true }

/-- Modelled from the spec: `defines.h`'s fixed decoded-frame byte size
(16-bit samples × 2 channels × a fixed samples-per-frame constant); its
exact value is immaterial to every claim. -/
def AUDIO_FRAME_BYTES : Nat := 2048 * 2 * 2

/-- `sample_format.bits` (output.c:24-30). -/
def sample_format_bits : Nat := 16

/-- `dump_hdc` (output.c:75-80): ADTS header for the packet length, raw
packet bytes, flush. -/
def dump_hdc (fp : FileSt) (pkt : List Nat) : FileSt :=
  fflushF (fwriteF (fwriteF fp (write_adts_header pkt.length)) pkt)

/-- `dump_adts` (output.c:59-73): the external `hdc_to_aac` transcoder's
output bytes `aac` are a parameter; header for their length, bytes, flush. -/
def dump_adts (fp : FileSt) (aac : List Nat) : FileSt :=
  fflushF (fwriteF (fwriteF fp (write_adts_header aac.length)) aac)

/-- Result record of `NeAACDecDecode` (external decoder). -/
structure NeAACDecFrameInfo where
  error : Nat
  samples : Nat
  deriving DecidableEq

/-- `output_t`: the session. `dev` is the audio sink modelled as the list
of PCM blocks played through it; `handle` is the decoder instance and
`handleGen` a generation counter standing for fresh `NeAACDecInitHDC`
instances. -/
structure OutputSt where
  method : OutputMethod
  outfp : FileSt
  dev : List (List Nat)
  handle : Option Nat
  handleGen : Nat
  pool : PoolSt

/-- `output_push` (output.c:82-134). The decode outcome (`info`, PCM bytes
`pcm`) and the transcoded bytes `aac` are inputs standing for the external
calls; `threads` selects the `USE_THREADS` build. Returns the new session
and the diagnostic records logged, or `none` where the C code blocks
forever or dies on the `assert` (output.c:109). -/
def output_push (st : OutputSt) (pkt : List Nat) (info : NeAACDecFrameInfo)
    (pcm : List Nat) (aac : List Nat) (threads : Bool) :
    Option (OutputSt × List Nat) :=
  match st.method with
  | .adts => some ({ st with outfp := dump_adts st.outfp aac }, [])
  | .hdc => some ({ st with outfp := dump_hdc st.outfp pkt }, [])
  | _ =>
    let logs := if 0 < info.error then [info.error] else []
    if info.error = 0 ∧ 0 < info.samples then
      let bytes := info.samples * sample_format_bits / 8
      if bytes = AUDIO_FRAME_BYTES then
        if threads then
          match acquire_free st.pool with
          | none => none
          | some p1 =>
            match publish p1 with
            | none => none
            | some p2 => some ({ st with pool := p2 }, logs)
        else
          some ({ st with dev := st.dev ++ [pcm] }, logs)
      else none
    else
      some (st, logs)

/-- `output_reset` (output.c:165-192): early return for the framed file
modes; otherwise close/reopen the decoder and splice the pending list into
the free list. -/
def output_reset (st : OutputSt) : Option OutputSt :=
  if st.method = .adts ∨ st.method = .hdc then some st
  else
    let st2 := { st with handle := some st.handleGen, handleGen := st.handleGen + 1 }
    match output_reset_pool st2.pool with
    | none => none
    | some p => some { st2 with pool := p }

/-- A fresh `stdout` stream handle. -/
def stdoutFile : FileSt := { data := [], flushed := true }

/-- `output_init_adts` (output.c:194-204); `fopenRes` is the environment's
answer to the `fopen` call. -/
def output_init_adts (name : String) (fopenRes : Option FileSt) :
    Except String (OutputMethod × FileSt) :=
  match (if name = "-" then some stdoutFile else fopenRes) with
  | none => .error "Unable to open output adts file."
  | some fp => .ok (.adts, fp)

/-- `output_init_hdc` (output.c:206-216). -/
def output_init_hdc (name : String) (fopenRes : Option FileSt) :
    Except String (OutputMethod × FileSt) :=
  match (if name = "-" then some stdoutFile else fopenRes) with
  | none => .error "Unable to open output adts-hdc file."
  | some fp => .ok (.hdc, fp)

/-- `output_init_ao` (output.c:218-248): fatal exit when the sink cannot be
opened, before any pool state is built; otherwise pre-populate the pool
with 32 buffers, start the worker, and run `output_reset`. -/
def output_init_ao (method : OutputMethod) (devRes : Option Unit) :
    Except String OutputSt :=
  match devRes with
  | none => .error "Unable to open output wav file."
  | some _ =>
    let st : OutputSt :=
      { method := method, outfp := stdoutFile, dev := [], handle := none,
        handleGen := 0, pool := initPool }
    match output_reset st with
    | none => .error "output_reset diverged"
    | some st2 => .ok st2

/-- Concrete live-device session used in witnesses. -/
def c6wSession : OutputSt :=
  { method := .live, outfp := stdoutFile, dev := [], handle := some 0,
    handleGen := 1, pool := initPool }

/-- Concrete ADTS-file session used in witnesses. -/
def c7wSession : OutputSt :=
  { method := .adts, outfp := { data := [1, 2], flushed := true }, dev := [],
    handle := none, handleGen := 0, pool := initPool }

/-! ## Lock-discipline traces (for the mutual-exclusion claim)

Each function touching the free/pending sequences is abstracted to its
sequence of atomic actions in source order; `mutateSeq` is a store to
`st->free`, `st->head`, `st->tail` or a buffer's `next` field. -/

inductive LockAct
  | lock | unlock | waitCond | signalCond | mutateSeq | memcpyData | playAudio
  deriving DecidableEq

/-- The `USE_THREADS` enqueue section of `output_push` (output.c:112-129). -/
def output_push_acts : List LockAct :=
  [.lock, .waitCond, .mutateSeq, .unlock, .memcpyData,
   .lock, .mutateSeq, .mutateSeq, .unlock, .signalCond]

/-- One iteration of `output_worker` (output.c:145-160). -/
def output_worker_acts : List LockAct :=
  [.lock, .waitCond, .unlock, .playAudio,
   .lock, .mutateSeq, .mutateSeq, .mutateSeq, .unlock, .signalCond]

/-- The pool section of `output_reset` (output.c:178-191): four stores to
the sequence pointers, no lock or unlock anywhere in the function. -/
def output_reset_acts : List LockAct :=
  [.mutateSeq, .mutateSeq, .mutateSeq, .mutateSeq]

/-- Whether every sequence mutation in the trace happens while the mutex is
held. -/
def mutationsLocked (tr : List LockAct) : Bool :=
  (tr.foldl
    (fun (st : Bool × Nat) a =>
      match a with
      | .lock => (st.1, st.2 + 1)
      | .unlock => (st.1, st.2 - 1)
      | .mutateSeq => (st.1 && decide (0 < st.2), st.2)
      | _ => st)
    (true, 0)).1

-- THEOREMS-MARKER
/-! ### Bit-stream lemmas -/

theorem length_bitsOf (v n : Nat) : (bitsOf v n).length = n := by
  simp [bitsOf]

theorem bitsOf_succ (v n : Nat) :
    bitsOf v (n + 1) = v.testBit n :: bitsOf v n := by
  simp only [bitsOf, List.range_succ_eq_map, List.map_cons, List.map_map,
    Function.comp_def]
  congr 1
  apply List.map_congr_left
  intro i _
  congr 1; omega

theorem bitsVal_go (l : List Bool) (a : Nat) :
    l.foldl (fun a b => 2 * a + (if b then 1 else 0)) a
      = a * 2 ^ l.length + bitsVal l := by
  induction l generalizing a with
  | nil => simp [bitsVal]
  | cons b t ih =>
    simp only [List.foldl_cons, List.length_cons, bitsVal]
    rw [ih, ih (2 * 0 + if b then 1 else 0)]
    ring

theorem bitsVal_append (l1 l2 : List Bool) :
    bitsVal (l1 ++ l2) = bitsVal l1 * 2 ^ l2.length + bitsVal l2 := by
  simp only [bitsVal, List.foldl_append]
  rw [bitsVal_go l2 (List.foldl _ 0 l1)]
  rfl

theorem bitsVal_cons (b : Bool) (l : List Bool) :
    bitsVal (b :: l) = (if b then 1 else 0) * 2 ^ l.length + bitsVal l := by
  have : b :: l = [b] ++ l := rfl
  rw [this, bitsVal_append]
  simp [bitsVal]

theorem bitsVal_lt (l : List Bool) : bitsVal l < 2 ^ l.length := by
  induction l with
  | nil => simp [bitsVal]
  | cons b t ih =>
    rw [bitsVal_cons]
    simp only [List.length_cons, pow_succ]
    cases b <;> simp <;> omega

theorem bitsVal_bitsOf (v n : Nat) : bitsVal (bitsOf v n) = v % 2 ^ n := by
  induction n with
  | zero => simp [bitsOf, bitsVal, Nat.mod_one]
  | succ n ih =>
    rw [bitsOf_succ, bitsVal_cons, length_bitsOf, ih]
    have hmul : (2 : Nat) ^ (n + 1) = 2 ^ n * 2 := by ring
    rw [hmul, Nat.mod_mul]
    rcases Nat.mod_two_eq_zero_or_one (v / 2 ^ n) with h | h
    · simp [Nat.testBit_to_div_mod, h]
    · simp [Nat.testBit_to_div_mod, h]
      omega

theorem bitsOf_bitsVal (l : List Bool) : bitsOf (bitsVal l) l.length = l := by
  induction l with
  | nil => simp [bitsOf]
  | cons b t ih =>
    rw [List.length_cons, bitsOf_succ, bitsVal_cons]
    have hlt := bitsVal_lt t
    have hhead : Nat.testBit ((if b then 1 else 0) * 2 ^ t.length + bitsVal t)
        t.length = b := by
      rw [Nat.testBit_to_div_mod]
      have hdiv : ((if b then 1 else 0) * 2 ^ t.length + bitsVal t) / 2 ^ t.length
          = (if b then 1 else 0) := by
        rw [mul_comm, Nat.mul_add_div (by positivity), Nat.div_eq_of_lt hlt,
          Nat.add_zero]
      rw [hdiv]; cases b <;> simp
    have htail : bitsOf ((if b then 1 else 0) * 2 ^ t.length + bitsVal t)
        t.length = bitsOf (bitsVal t) t.length := by
      unfold bitsOf
      apply List.map_congr_left
      intro i hi
      rw [List.mem_range] at hi
      have hpos : t.length - 1 - i < t.length := by omega
      cases b
      · simp
      · simp only [if_pos trivial, one_mul]
        rw [Nat.testBit_two_pow_add_gt hpos]
    rw [hhead, htail, ih]

theorem bytesOfBits_append8 (c l : List Bool) (h : c.length = 8) :
    bytesOfBits (c ++ l) = bitsVal c :: bytesOfBits l := by
  unfold bytesOfBits
  have hlen : (c ++ l).length = 8 + l.length := by simp [h]
  have hdiv : (c ++ l).length / 8 = l.length / 8 + 1 := by rw [hlen]; omega
  rw [hdiv, List.range_succ_eq_map]
  simp only [List.map_cons, List.map_map, Function.comp_def]
  congr 1
  · rw [Nat.mul_zero, List.drop_zero, List.take_append_of_le_length (by omega),
      ← h, List.take_length]
  · apply List.map_congr_left
    intro k _
    have hk : 8 * (k + 1) = c.length + 8 * k := by rw [h]; ring
    rw [hk, List.drop_append]

theorem bitsOfBytes_cons (v : Nat) (bs : List Nat) :
    bitsOfBytes (v :: bs) = bitsOf v 8 ++ bitsOfBytes bs := by
  simp [bitsOfBytes]

theorem bitsOfBytes_bytesOfBits :
    ∀ (n : Nat) (l : List Bool), l.length = 8 * n →
      bitsOfBytes (bytesOfBits l) = l := by
  intro n
  induction n with
  | zero =>
    intro l hl
    have : l = [] := List.eq_nil_of_length_eq_zero (by omega)
    subst this
    simp [bytesOfBits, bitsOfBytes]
  | succ n ih =>
    intro l hl
    have hc : (l.take 8).length = 8 := by rw [List.length_take]; omega
    have hrest : (l.drop 8).length = 8 * n := by rw [List.length_drop]; omega
    conv_lhs => rw [← List.take_append_drop 8 l]
    rw [bytesOfBits_append8 _ _ hc, bitsOfBytes_cons, ih _ hrest]
    have hbo := bitsOf_bitsVal (l.take 8)
    rw [hc] at hbo
    rw [hbo]
    exact List.take_append_drop 8 l

/-! ### Decomposition of the header bit stream -/

theorem adtsHeaderBits_decomp (len : Nat) :
    adtsHeaderBits len = adtsPreBits ++ (bitsOf (len + 7) 13 ++ adtsSufBits) := by
  simp [adtsHeaderBits, bw_addbits, adtsPreBits, adtsSufBits, List.append_assoc]

theorem adtsPreBits_length : adtsPreBits.length = 30 := by
  simp [adtsPreBits, length_bitsOf]

theorem adtsHeaderBits_length (len : Nat) : (adtsHeaderBits len).length = 56 := by
  rw [adtsHeaderBits_decomp]
  simp [adtsPreBits_length, adtsSufBits, length_bitsOf]

theorem bitsOfBytes_write_adts_header (len : Nat) :
    bitsOfBytes (write_adts_header len) = adtsHeaderBits len :=
  bitsOfBytes_bytesOfBits 7 _ (adtsHeaderBits_length len)

theorem write_adts_header_length (len : Nat) :
    (write_adts_header len).length = 7 := by
  simp [write_adts_header, bytesOfBits, adtsHeaderBits_length]

theorem readField_adts_pre (len off w : Nat) (h : off + w ≤ 30) :
    readField (write_adts_header len) off w
      = bitsVal ((adtsPreBits.drop off).take w) := by
  unfold readField
  rw [bitsOfBytes_write_adts_header, adtsHeaderBits_decomp,
    List.drop_append_of_le_length (by rw [adtsPreBits_length]; omega),
    List.take_append_of_le_length (by rw [List.length_drop, adtsPreBits_length]; omega)]

theorem readField_adts_frame (len : Nat) :
    readField (write_adts_header len) 30 13 = (len + 7) % 2 ^ 13 := by
  unfold readField
  rw [bitsOfBytes_write_adts_header, adtsHeaderBits_decomp,
    List.drop_left' adtsPreBits_length,
    List.take_append_of_le_length (by rw [length_bitsOf]),
    List.take_of_length_le (by rw [length_bitsOf])]
  exact bitsVal_bitsOf _ 13

theorem readField_adts_suf (len off w : Nat) (h1 : 43 ≤ off) :
    readField (write_adts_header len) off w
      = bitsVal ((adtsSufBits.drop (off - 43)).take w) := by
  obtain ⟨k, rfl⟩ : ∃ k, off = 43 + k := ⟨off - 43, by omega⟩
  unfold readField
  rw [bitsOfBytes_write_adts_header, adtsHeaderBits_decomp, ← List.append_assoc]
  have hlen : (adtsPreBits ++ bitsOf (len + 7) 13).length = 43 := by
    simp [adtsPreBits_length, length_bitsOf]
  rw [show 43 + k - 43 = k by omega]
  rw [show 43 + k = (adtsPreBits ++ bitsOf (len + 7) 13).length + k by rw [hlen],
    List.drop_append]

theorem adtsConstFields_all (len : Nat) :
    adtsConstFieldsOk (write_adts_header len) := by
  refine ⟨?_, ?_, ?_, ?_, ?_, ?_, ?_, ?_, ?_, ?_, ?_, ?_, ?_, ?_⟩
  · rw [readField_adts_pre len 0 12 (by omega)]; decide
  · rw [readField_adts_pre len 12 1 (by omega)]; decide
  · rw [readField_adts_pre len 13 2 (by omega)]; decide
  · rw [readField_adts_pre len 15 1 (by omega)]; decide
  · rw [readField_adts_pre len 16 2 (by omega)]; decide
  · rw [readField_adts_pre len 18 4 (by omega)]; decide
  · rw [readField_adts_pre len 22 1 (by omega)]; decide
  · rw [readField_adts_pre len 23 3 (by omega)]; decide
  · rw [readField_adts_pre len 26 1 (by omega)]; decide
  · rw [readField_adts_pre len 27 1 (by omega)]; decide
  · rw [readField_adts_pre len 28 1 (by omega)]; decide
  · rw [readField_adts_pre len 29 1 (by omega)]; decide
  · rw [readField_adts_suf len 43 11 (by omega)]; decide
  · rw [readField_adts_suf len 54 2 (by omega)]; decide

/-- C1: for every payload length `L ≤ 8184`, `write_adts_header L` yields
exactly 7 bytes whose MSB-first bit fields, in the §6 order, hold the fixed
constants (sync 0xFFF, id 0, layer 0, protection_absent 1, profile 1,
sampling_freq_index 7, private 0, channel_config 2, original/home/
copyright_id/copyright_start 0, buffer_fullness 0x7FF,
frames_in_payload_minus_one 0) and whose 13-bit `frame_length` field holds
`L + 7`; the constant fields are independent of `L`. -/
theorem c1_write_adts_header_fields (len : Nat) (h : len ≤ 8184) :
    (write_adts_header len).length = 7 ∧
    adtsConstFieldsOk (write_adts_header len) ∧
    readField (write_adts_header len) 30 13 = len + 7 := by
  refine ⟨write_adts_header_length len, adtsConstFields_all len, ?_⟩
  rw [readField_adts_frame len]
  exact Nat.mod_eq_of_lt (by omega)

/-- Witness for C1 at the concrete payload length 100. -/
theorem c1_write_adts_header_fields_witness :
    100 ≤ 8184 ∧
    ((write_adts_header 100).length = 7 ∧
     adtsConstFieldsOk (write_adts_header 100) ∧
     readField (write_adts_header 100) 30 13 = 107) :=
  ⟨by omega, c1_write_adts_header_fields 100 (by omega)⟩

/-- C10: `write_adts_header` is total over every `len`: it performs no range
check, always yields 7 bytes whose 13-bit `frame_length` field holds
`(len + 7) mod 2^13` (silent truncation), and all other fields hold the same
constants as for an in-range length. -/
theorem c10_write_adts_header_truncates (len : Nat) :
    (write_adts_header len).length = 7 ∧
    adtsConstFieldsOk (write_adts_header len) ∧
    readField (write_adts_header len) 30 13 = (len + 7) % 2 ^ 13 :=
  ⟨write_adts_header_length len, adtsConstFields_all len,
    readField_adts_frame len⟩

/-- C2: pushing a packet through `output_push` in `OUTPUT_HDC` (raw framed)
mode appends the 7-byte ADTS header followed by the unmodified packet bytes
to the output file and flushes it before returning; for a 100-byte packet
exactly 107 bytes are appended and the header's `frame_length` field reads
107. -/
theorem c2_push_hdc_frames_packet (st : OutputSt) (pkt : List Nat)
    (info : NeAACDecFrameInfo) (pcm aac : List Nat) (threads : Bool)
    (hm : st.method = .hdc) (hlen : pkt.length = 100) :
    output_push st pkt info pcm aac threads
      = some ({ st with outfp := dump_hdc st.outfp pkt }, []) ∧
    (dump_hdc st.outfp pkt).data
      = st.outfp.data ++ (write_adts_header 100 ++ pkt) ∧
    (write_adts_header 100 ++ pkt).length = 107 ∧
    (dump_hdc st.outfp pkt).flushed = true ∧
    readField (write_adts_header 100) 30 13 = 107 := by
  refine ⟨?_, ?_, ?_, ?_, ?_⟩
  · simp [output_push, hm]
  · simp [dump_hdc, fwriteF, fflushF, hlen, List.append_assoc]
  · simp [write_adts_header_length, hlen]
  · simp [dump_hdc, fflushF]
  · rw [readField_adts_frame]
    decide

/-- Concrete session and packet witnessing C2. -/
def c2wSession : OutputSt :=
  { method := .hdc, outfp := { data := [], flushed := true }, dev := [],
    handle := none, handleGen := 0, pool := initPool }

def c2wPkt : List Nat := List.replicate 100 1

/-- Witness for C2: a 100-byte packet pushed into a fresh HDC session. -/
theorem c2_push_hdc_frames_packet_witness :
    (c2wSession.method = .hdc ∧ c2wPkt.length = 100) ∧
    (output_push c2wSession c2wPkt ⟨0, 0⟩ [] [] true
       = some ({ c2wSession with outfp := dump_hdc c2wSession.outfp c2wPkt }, []) ∧
     (dump_hdc c2wSession.outfp c2wPkt).data
       = c2wSession.outfp.data ++ (write_adts_header 100 ++ c2wPkt) ∧
     (write_adts_header 100 ++ c2wPkt).length = 107 ∧
     (dump_hdc c2wSession.outfp c2wPkt).flushed = true ∧
     readField (write_adts_header 100) 30 13 = 107) :=
  ⟨⟨rfl, by decide⟩,
   c2_push_hdc_frames_packet c2wSession c2wPkt ⟨0, 0⟩ [] [] true rfl (by decide)⟩

/-- C6: when the external decoder reports a nonzero error code,
`output_push` in a decode mode logs exactly one diagnostic, plays nothing,
enqueues nothing, and returns the session state completely unchanged. -/
theorem c6_decode_error_is_recoverable (st : OutputSt) (pkt : List Nat)
    (info : NeAACDecFrameInfo) (pcm aac : List Nat) (threads : Bool)
    (hm : st.method = .wav ∨ st.method = .live) (herr : 0 < info.error) :
    output_push st pkt info pcm aac threads = some (st, [info.error]) := by
  have hne : ¬ info.error = 0 := by omega
  rcases hm with h | h <;> simp [output_push, h, herr, hne]

/-- Witness for C6: decode error 5 on a live session leaves it untouched. -/
theorem c6_decode_error_is_recoverable_witness :
    ((c6wSession.method = .wav ∨ c6wSession.method = .live) ∧
      0 < (⟨5, 0⟩ : NeAACDecFrameInfo).error) ∧
    output_push c6wSession [1, 2, 3] ⟨5, 0⟩ [] [] true
      = some (c6wSession, [5]) :=
  ⟨⟨Or.inr rfl, by decide⟩,
   c6_decode_error_is_recoverable c6wSession [1, 2, 3] ⟨5, 0⟩ [] [] true
     (Or.inr rfl) (by decide)⟩

/-- C7: `output_reset` on a framed file session (`OUTPUT_ADTS` or
`OUTPUT_HDC`) is a no-op: it returns the very same session state — file
handle, decoder handle and pool fields untouched — and performs no write. -/
theorem c7_reset_noop_for_framed (st : OutputSt)
    (hm : st.method = .adts ∨ st.method = .hdc) :
    output_reset st = some st := by
  unfold output_reset
  rw [if_pos hm]

/-- Witness for C7 on a concrete ADTS session. -/
theorem c7_reset_noop_for_framed_witness :
    (c7wSession.method = .adts ∨ c7wSession.method = .hdc) ∧
    output_reset c7wSession = some c7wSession :=
  ⟨Or.inl rfl, c7_reset_noop_for_framed c7wSession (Or.inl rfl)⟩

/-- C8: when opening the requested output file or audio sink fails (null
handle), every session constructor terminates the process with a fatal
error and returns no (partial) session. -/
theorem c8_init_open_failure_fatal (name : String) (hname : name ≠ "-")
    (m : OutputMethod) :
    output_init_adts name none = .error "Unable to open output adts file." ∧
    output_init_hdc name none = .error "Unable to open output adts-hdc file." ∧
    output_init_ao m none = .error "Unable to open output wav file." := by
  refine ⟨?_, ?_, rfl⟩
  · simp [output_init_adts, hname]
  · simp [output_init_hdc, hname]

/-- Witness for C8 at a concrete file name and the WAV sink. -/
theorem c8_init_open_failure_fatal_witness :
    "out.adts" ≠ "-" ∧
    (output_init_adts "out.adts" none
       = .error "Unable to open output adts file." ∧
     output_init_hdc "out.adts" none
       = .error "Unable to open output adts-hdc file." ∧
     output_init_ao .wav none = .error "Unable to open output wav file.") :=
  ⟨by decide, c8_init_open_failure_fatal "out.adts" (by decide) .wav⟩

/-- C9 FAILS on the code: `output_reset` (output.c:178-191) stores to
`st->free`, `st->head`, `st->tail` and a buffer's `next` field with the
pool mutex never acquired, while the enqueue section of `output_push` and
the `output_worker` loop do perform all their sequence mutations under the
lock. -/
theorem c9_reset_mutates_without_lock :
    mutationsLocked output_reset_acts = false ∧
    mutationsLocked output_push_acts = true ∧
    mutationsLocked output_worker_acts = true := by
  decide

/-- C3 FAILS on the code: after the reachable operation sequence
`c3trace` — `output_reset` running between the worker's peek of the
pending head and its unlink step (i.e. while `ao_play` is in progress),
followed by one more push — buffer 31 is reachable from both the free and
the pending pointers at once, and the distinct-buffer total over
free ∪ pending ∪ in-flight collapses from 32 to 1. -/
theorem c3_pool_size_invariant_violated :
    (runPool c3trace initPool).isSome = true ∧
    31 ∈ freeReach c3state ∧
    31 ∈ pendReach c3state ∧
    ((freeReach c3state ++ pendReach c3state ++ heldList c3state).dedup).length
      = 1 := by
  refine ⟨by decide, by decide, by decide, by decide⟩

/-! ### Chain lemmas for the intrusive lists -/

theorem upd_self (f : Heap) (x : Buf) (v : Option Buf) : upd f x v x = v :=
  if_pos rfl

theorem upd_ne (f : Heap) (x y : Buf) (v : Option Buf) (h : y ≠ x) :
    upd f x v y = f y :=
  if_neg h

theorem isChain_nil_iff (next : Heap) (p : Option Buf) :
    isChain next p [] = true ↔ p = none := by
  simp [isChain]

theorem isChain_cons_iff (next : Heap) (p : Option Buf) (b : Buf)
    (l : List Buf) :
    isChain next p (b :: l) = true
      ↔ p = some b ∧ isChain next (next b) l = true := by
  simp [isChain, Bool.and_eq_true]

theorem isChain_upd_of_not_mem (next : Heap) (x : Buf) (v : Option Buf) :
    ∀ (l : List Buf) (p : Option Buf), x ∉ l →
      isChain (upd next x v) p l = isChain next p l := by
  intro l
  induction l with
  | nil => intro p _; rfl
  | cons b t ih =>
    intro p hx
    have hbx : b ≠ x := fun hh => hx (hh ▸ List.mem_cons_self b t)
    have hxt : x ∉ t := fun hh => hx (List.mem_cons_of_mem _ hh)
    simp only [isChain]
    rw [upd_ne next x b v hbx, ih _ hxt]

theorem walkLast_of_isChain (next : Heap) :
    ∀ (l : List Buf) (fuel : Nat) (p : Option Buf),
      isChain next p l = true → l.length ≤ fuel + 1 →
      walkLast next fuel p = some l.getLast? := by
  intro l
  induction l with
  | nil =>
    intro fuel p hc _
    have hp : p = none := (isChain_nil_iff next p).mp hc
    subst hp
    cases fuel <;> rfl
  | cons b t ih =>
    intro fuel p hc hlen
    obtain ⟨hp, hct⟩ := (isChain_cons_iff next p b t).mp hc
    subst hp
    cases t with
    | nil =>
      have hnb : next b = none := (isChain_nil_iff next _).mp hct
      cases fuel <;> simp [walkLast, hnb]
    | cons b2 t2 =>
      obtain ⟨hnb, _⟩ := (isChain_cons_iff next _ b2 t2).mp hct
      cases fuel with
      | zero => simp at hlen
      | succ fuel2 =>
        have hstep : walkLast next (fuel2 + 1) (some b)
            = walkLast next fuel2 (some b2) := by
          simp [walkLast, hnb]
        rw [hstep, List.getLast?_cons_cons]
        apply ih fuel2 (some b2)
        · rw [← hnb]; exact hct
        · simp at hlen ⊢; omega

theorem isChain_append_link (next : Heap) (q : Option Buf) :
    ∀ (l : List Buf) (p : Option Buf) (t : Buf) (l2 : List Buf),
      isChain next p l = true → l.getLast? = some t → l.Nodup →
      isChain next q l2 = true → t ∉ l2 →
      isChain (upd next t q) p (l ++ l2) = true := by
  intro l
  induction l with
  | nil => intro p t l2 _ hlast; simp at hlast
  | cons b tl ih =>
    intro p t l2 hc hlast hnd hc2 htl2
    obtain ⟨hp, hct⟩ := (isChain_cons_iff next p b tl).mp hc
    subst hp
    cases tl with
    | nil =>
      have hbt : t = b := by simpa using hlast.symm
      subst hbt
      show isChain (upd next t q) (some t) (t :: l2) = true
      refine (isChain_cons_iff _ _ _ _).mpr ⟨rfl, ?_⟩
      rw [upd_self, isChain_upd_of_not_mem next t q l2 q htl2]
      exact hc2
    | cons b2 tl2 =>
      have hlast2 : (b2 :: tl2).getLast? = some t := by
        rw [← List.getLast?_cons_cons (a := b)]; exact hlast
      have hnd2 : (b2 :: tl2).Nodup := (List.nodup_cons.mp hnd).2
      have hbt : b ≠ t := by
        intro hh
        exact (List.nodup_cons.mp hnd).1 (hh ▸ List.mem_of_getLast?_eq_some hlast2)
      refine (isChain_cons_iff _ _ _ _).mpr ⟨rfl, ?_⟩
      rw [upd_ne next t b q hbt]
      exact ih (next b) t l2 hct hlast2 hnd2 hc2 htl2

/-! ### Preservation of the pool invariant under the four locked operations -/

theorem PoolInv_initPool : PoolInv initPool := by
  refine ⟨(List.range 32).reverse, [], by decide, by decide, by decide,
    by decide, ?_⟩
  have hw : initPool.workerHeld = none := by decide
  simp only [workerGhostInv, hw]
  decide

theorem acquire_free_inv (s s2 : PoolSt) (h : acquire_free s = some s2)
    (hinv : PoolInv s) : PoolInv s2 := by
  obtain ⟨freeL, pend, hcf, hcp, ht, hnd, hg⟩ := hinv
  unfold acquire_free at h
  cases hph : s.prodHeld with
  | some x => rw [hph] at h; simp at h
  | none =>
    cases hf : s.free with
    | none => rw [hph, hf] at h; simp at h
    | some ob =>
      rw [hph, hf] at h
      simp at h
      subst h
      rw [hf] at hcf
      cases freeL with
      | nil => simp [isChain] at hcf
      | cons a fl =>
        obtain ⟨ha, hcf2⟩ := (isChain_cons_iff _ _ _ _).mp hcf
        obtain rfl : ob = a := Option.some.inj ha
        rw [hph] at hnd
        simp only [Option.toList, List.append_nil] at hnd
        refine ⟨fl, pend, hcf2, hcp, ht, ?_, hg⟩
        simp only [Option.toList]
        have hnd2 : (ob :: (fl ++ pend)).Nodup := by simpa using hnd
        have hperm : (ob :: (fl ++ pend)).Perm ((fl ++ pend) ++ [ob]) :=
          (List.perm_append_singleton ob (fl ++ pend)).symm
        exact hperm.nodup hnd2

theorem take_pending_inv (s s2 : PoolSt) (h : take_pending s = some s2)
    (hinv : PoolInv s) : PoolInv s2 := by
  obtain ⟨freeL, pend, hcf, hcp, ht, hnd, hg⟩ := hinv
  unfold take_pending at h
  cases hw : s.workerHeld with
  | some x => rw [hw] at h; simp at h
  | none =>
    cases hh : s.head with
    | none => rw [hw, hh] at h; simp at h
    | some ob =>
      rw [hw, hh] at h
      simp at h
      subst h
      rw [hh] at hcp
      cases pend with
      | nil => simp [isChain] at hcp
      | cons a rest =>
        obtain ⟨ha, hrest⟩ := (isChain_cons_iff _ _ _ _).mp hcp
        obtain rfl : ob = a := Option.some.inj ha
        refine ⟨freeL, ob :: rest, hcf, ?_, ht, hnd, ?_⟩
        · exact hcp
        · simp only [workerGhostInv, hw] at hg
          simp only [workerGhostInv]
          exact ⟨rest, rfl, by rw [hg]; simp⟩

theorem publish_inv (s s2 : PoolSt) (h : publish s = some s2)
    (hinv : PoolInv s) : PoolInv s2 := by
  obtain ⟨freeL, pend, hcf, hcp, ht, hnd, hg⟩ := hinv
  unfold publish at h
  cases hph : s.prodHeld with
  | none => rw [hph] at h; simp at h
  | some ob =>
    rw [hph] at h
    rw [hph] at hnd
    simp only [Option.toList] at hnd
    have hnd1 := hnd
    rw [List.nodup_append] at hnd1
    obtain ⟨hfp, _, hdisj1⟩ := hnd1
    rw [List.nodup_append] at hfp
    obtain ⟨hndf, hndp, hdisj2⟩ := hfp
    have hobfree : ob ∉ freeL := fun hm =>
      hdisj1 (List.mem_append_left _ hm) (List.mem_singleton_self ob)
    have hobpend : ob ∉ pend := fun hm =>
      hdisj1 (List.mem_append_right _ hm) (List.mem_singleton_self ob)
    cases hta : s.tail with
    | none =>
      rw [hta] at h
      simp at h
      subst h
      have hpe : pend = [] := by
        rw [← List.getLast?_eq_none_iff, ← ht, hta]
      subst hpe
      cases hw : s.workerHeld with
      | some b =>
        simp only [workerGhostInv, hw] at hg
        obtain ⟨rest, hpr, _⟩ := hg
        simp at hpr
      | none =>
        simp only [workerGhostInv, hw] at hg
        refine ⟨freeL, [ob], ?_, ?_, ?_, ?_, ?_⟩
        · show isChain (upd s.next ob none) s.free freeL = true
          rw [isChain_upd_of_not_mem s.next ob none freeL s.free hobfree]
          exact hcf
        · show isChain (upd s.next ob none) (some ob) [ob] = true
          refine (isChain_cons_iff _ _ _ _).mpr ⟨rfl, ?_⟩
          rw [upd_self]
          exact (isChain_nil_iff _ _).mpr rfl
        · show some ob = ([ob] : List Buf).getLast?
          simp
        · show ((freeL ++ [ob]) ++ Option.toList none).Nodup
          simpa using hnd
        · simp only [workerGhostInv, hw]
          have hpt : s.published = s.taken := by simpa using hg
          rw [hpt]
    | some t =>
      rw [hta] at h
      simp at h
      subst h
      rw [hta] at ht
      have htpend : t ∈ pend := List.mem_of_getLast?_eq_some ht.symm
      have htfree : t ∉ freeL := fun hm => hdisj2 hm htpend
      have htob : t ≠ ob := fun hh => hobpend (hh ▸ htpend)
      refine ⟨freeL, pend ++ [ob], ?_, ?_, ?_, ?_, ?_⟩
      · show isChain (upd (upd s.next ob none) t (some ob)) s.free freeL = true
        rw [isChain_upd_of_not_mem (upd s.next ob none) t (some ob) freeL s.free htfree,
          isChain_upd_of_not_mem s.next ob none freeL s.free hobfree]
        exact hcf
      · show isChain (upd (upd s.next ob none) t (some ob)) s.head
          (pend ++ [ob]) = true
        apply isChain_append_link (upd s.next ob none) (some ob) pend s.head t [ob]
        · rw [isChain_upd_of_not_mem s.next ob none pend s.head hobpend]
          exact hcp
        · exact ht.symm
        · exact hndp
        · refine (isChain_cons_iff _ _ _ _).mpr ⟨rfl, ?_⟩
          rw [upd_self]
          exact (isChain_nil_iff _ _).mpr rfl
        · simp only [List.mem_singleton]
          exact htob
      · show some ob = (pend ++ [ob]).getLast?
        rw [List.getLast?_concat]
      · show ((freeL ++ (pend ++ [ob])) ++ Option.toList none).Nodup
        simp only [Option.toList, List.append_nil, ← List.append_assoc]
        exact hnd
      · cases hw : s.workerHeld with
        | none =>
          simp only [workerGhostInv, hw] at hg ⊢
          rw [hg, List.append_assoc]
        | some b =>
          simp only [workerGhostInv, hw] at hg ⊢
          obtain ⟨rest, hpr, hpub⟩ := hg
          refine ⟨rest ++ [ob], ?_, ?_⟩
          · rw [hpr]
            rfl
          · rw [hpub, List.append_assoc]

theorem release_inv (s s2 : PoolSt) (h : release s = some s2)
    (hinv : PoolInv s) : PoolInv s2 := by
  obtain ⟨freeL, pend, hcf, hcp, ht, hnd, hg⟩ := hinv
  unfold release at h
  cases hw : s.workerHeld with
  | none => rw [hw] at h; simp at h
  | some ob =>
    rw [hw] at h
    simp at h
    subst h
    simp only [workerGhostInv, hw] at hg
    obtain ⟨rest, hpr, hpub⟩ := hg
    subst hpr
    obtain ⟨hhead, hrest⟩ := (isChain_cons_iff _ _ _ _).mp hcp
    have hnd1 : (freeL ++ ob :: rest).Nodup := by
      rw [List.nodup_append] at hnd
      exact hnd.1
    have hobrest : ob ∉ rest := by
      rw [List.nodup_append] at hnd1
      exact (List.nodup_cons.mp hnd1.2.1).1
    have hobfree : ob ∉ freeL := by
      rw [List.nodup_append] at hnd1
      exact fun hm => hnd1.2.2 hm (List.mem_cons_self ob rest)
    refine ⟨ob :: freeL, rest, ?_, ?_, ?_, ?_, ?_⟩
    · show isChain (upd s.next ob s.free) (some ob) (ob :: freeL) = true
      refine (isChain_cons_iff _ _ _ _).mpr ⟨rfl, ?_⟩
      rw [upd_self, isChain_upd_of_not_mem s.next ob s.free freeL s.free hobfree]
      exact hcf
    · show isChain (upd s.next ob s.free) (s.next ob) rest = true
      rw [isChain_upd_of_not_mem s.next ob s.free rest (s.next ob) hobrest]
      exact hrest
    · show (if s.next ob = none then none else s.tail) = rest.getLast?
      cases hrc : rest with
      | nil =>
        have hnb : s.next ob = none :=
          (isChain_nil_iff _ _).mp (by rw [← hrc]; exact hrest)
        simp [hnb]
      | cons r2 rr =>
        have hnb : s.next ob = some r2 :=
          ((isChain_cons_iff _ _ _ _).mp (by rw [← hrc]; exact hrest)).1
        rw [hrc] at ht
        simp only [hnb, if_neg (by simp : ¬ (some r2 = none))]
        rw [ht, List.getLast?_cons_cons]
    · show ((ob :: freeL) ++ rest ++ s.prodHeld.toList).Nodup
      have hperm : ((freeL ++ ob :: rest) ++ s.prodHeld.toList).Perm
          ((ob :: (freeL ++ rest)) ++ s.prodHeld.toList) :=
        List.Perm.append_right _ List.perm_middle
      exact hperm.nodup hnd
    · simp only [workerGhostInv]
      exact hpub

theorem runPool_inv :
    ∀ (ops : List PoolOp), PoolOp.reset ∉ ops →
      ∀ s, PoolInv s → ∀ s2, runPool ops s = some s2 → PoolInv s2 := by
  intro ops
  induction ops with
  | nil =>
    intro _ s hs s2 h
    simp [runPool] at h
    exact h ▸ hs
  | cons op ops ih =>
    intro hops s hs s2 h
    have hop : op ≠ PoolOp.reset := by
      intro hh
      exact hops (hh ▸ List.mem_cons_self op ops)
    have hops2 : PoolOp.reset ∉ ops := fun hh => hops (List.mem_cons_of_mem _ hh)
    unfold runPool at h
    cases hstep : poolStep op s with
    | none => rw [hstep] at h; simp at h
    | some smid =>
      rw [hstep] at h
      change runPool ops smid = some s2 at h
      have hmid : PoolInv smid := by
        cases op with
        | acq => exact acquire_free_inv s smid hstep hs
        | pub => exact publish_inv s smid hstep hs
        | take => exact take_pending_inv s smid hstep hs
        | rel => exact release_inv s smid hstep hs
        | reset => exact absurd rfl hop
      exact ih hops2 smid hmid s2 h

/-- C4: for every interleaving of the producer's publish steps and the
worker's take/release steps (any reset-free operation sequence from the
initial 32-buffer pool), the sequence of buffers the worker has obtained is
a prefix of the sequence of buffers published, in the same order — playback
order equals FIFO arrival order with no reordering. -/
theorem c4_take_order_is_publish_order (ops : List PoolOp)
    (hops : PoolOp.reset ∉ ops) (s2 : PoolSt)
    (h : runPool ops initPool = some s2) :
    ∃ t2, s2.taken ++ t2 = s2.published := by
  obtain ⟨freeL, pend, _, _, _, _, hg⟩ :=
    runPool_inv ops hops initPool PoolInv_initPool s2 h
  cases hw : s2.workerHeld with
  | none =>
    simp only [workerGhostInv, hw] at hg
    exact ⟨pend, hg.symm⟩
  | some b =>
    simp only [workerGhostInv, hw] at hg
    obtain ⟨rest, _, hpub⟩ := hg
    exact ⟨rest, hpub.symm⟩

/-- Witness for C4 on a concrete interleaving: two publishes, one full
worker cycle, one pending take. -/
theorem c4_take_order_is_publish_order_witness :
    (PoolOp.reset ∉ c4trace ∧ runPool c4trace initPool = some c4state) ∧
    (∃ t2, c4state.taken ++ t2 = c4state.published) :=
  ⟨⟨by decide, rfl⟩,
   c4_take_order_is_publish_order c4trace (by decide) c4state rfl⟩

/-- C5: on any pool state whose pending and free pointers spell disjoint
proper lists, the pool part of `output_reset` moves all N pending buffers
to the front of the free list and leaves the pending list empty (`head` and
`tail` null); the new free list is exactly `pend ++ freeL`, so no buffer is
lost and none is duplicated. -/
theorem c5_reset_moves_pending_to_free (s : PoolSt) (pend freeL : List Buf)
    (hp : isChain s.next s.head pend = true)
    (hf : isChain s.next s.free freeL = true)
    (hnd : (pend ++ freeL).Nodup) (hlen : pend.length ≤ 65) :
    ∃ s2, output_reset_pool s = some s2 ∧
      isChain s2.next s2.free (pend ++ freeL) = true ∧
      s2.head = none ∧ s2.tail = none := by
  unfold output_reset_pool
  cases hpe : pend with
  | nil =>
    have hh : s.head = none := (isChain_nil_iff _ _).mp (by rw [← hpe]; exact hp)
    rw [hh]
    refine ⟨_, rfl, ?_, rfl, rfl⟩
    show isChain s.next s.free ([] ++ freeL) = true
    simpa using hf
  | cons b rest =>
    rw [hpe] at hp hnd
    have hpne : b :: rest ≠ ([] : List Buf) := by simp
    have hlt : (b :: rest).getLast? = some ((b :: rest).getLast hpne) :=
      List.getLast?_eq_getLast_of_ne_nil hpne
    have hwalk : walkLast s.next 64 s.head = some (some ((b :: rest).getLast hpne)) := by
      rw [walkLast_of_isChain s.next (b :: rest) 64 s.head hp
        (by rw [hpe] at hlen; omega)]
      rw [hlt]
    rw [hwalk]
    refine ⟨_, rfl, ?_, rfl, rfl⟩
    rw [List.nodup_append] at hnd
    show isChain (upd s.next ((b :: rest).getLast hpne) s.free) s.head
      ((b :: rest) ++ freeL) = true
    apply isChain_append_link s.next s.free (b :: rest) s.head
      ((b :: rest).getLast hpne) freeL hp hlt hnd.1 hf
    exact fun hm => hnd.2.2 (List.getLast_mem hpne) hm

/-- Concrete pool used to witness C5: pending `[5, 3]`, free `[7]`. -/
def c5wPool : PoolSt :=
  { next := fun b => if b = 5 then some 3 else none, free := some 7,
    head := some 5, tail := some 3, prodHeld := none, workerHeld := none,
    published := [5, 3], taken := [] }

/-- Witness for C5 on `c5wPool`. -/
theorem c5_reset_moves_pending_to_free_witness :
    (isChain c5wPool.next c5wPool.head [5, 3] = true ∧
     isChain c5wPool.next c5wPool.free [7] = true ∧
     ([5, 3] ++ [7] : List Buf).Nodup ∧ ([5, 3] : List Buf).length ≤ 65) ∧
    (∃ s2, output_reset_pool c5wPool = some s2 ∧
       isChain s2.next s2.free ([5, 3] ++ [7]) = true ∧
       s2.head = none ∧ s2.tail = none) :=
  ⟨⟨by decide, by decide, by decide, by decide⟩,
   c5_reset_moves_pending_to_free c5wPool [5, 3] [7]
     (by decide) (by decide) (by decide) (by decide)⟩

end NRSC5

